import Mathlib

/-!
# Verification of the YouTube video summarizer pipeline

Shallow embedding of `src/main.py`. Python strings are modelled as `List Char`
(`Str`); the durable state file `processed_videos.txt` is an `Option Str`
(`none` = the file does not exist). External collaborators (the transcript
API, the generative model) are parameters of type `Str → Option _`, where
`none` models the exception / failure branch of the corresponding `try`.
-/

abbrev Str := List Char

/-- Python `str.strip()` whitespace predicate (the six ASCII whitespace
characters recognised by `str.isspace`). -/
def isPySpace (c : Char) : Bool :=
  c = ' ' || c = '\t' || c = '\n' || c = '\r' || c = '\x0b' || c = '\x0c'

/-- Drop leading Python whitespace. -/
def trimLeft (l : Str) : Str := l.dropWhile isPySpace

/-- Drop trailing Python whitespace. -/
def trimRight (l : Str) : Str := (l.reverse.dropWhile isPySpace).reverse

/-- Python `str.strip()`: remove leading and trailing whitespace. -/
def pyStrip (l : Str) : Str := trimLeft (trimRight l)

/-- Python text-file line iteration (`for line in f`): split after each
newline, keeping the `'\n'` at the end of every line except possibly the
last.  `"a\nb"` ↦ `["a\n", "b"]`, `"a\n"` ↦ `["a\n"]`, `""` ↦ `[]`. -/
def pyLines : Str → List Str
  | [] => []
  | c :: rest =>
    if c = '\n' then ['\n'] :: pyLines rest
    else
      match pyLines rest with
      | [] => [[c]]
      | l :: ls => (c :: l) :: ls

/-- `get_processed_videos` (src/main.py:34-39): if the state file does not
exist return the empty set, otherwise the set of stripped lines. -/
def get_processed_videos (fs : Option Str) : Finset Str :=
  match fs with
  | none => ∅
  | some c => ((pyLines c).map pyStrip).toFinset

/-- `save_processed_video` (src/main.py:41-44): open the state file in append
mode (creating it if absent) and write `f"{video_id}\n"`. -/
def save_processed_video (fs : Option Str) (video_id : Str) : Option Str :=
  some (fs.getD [] ++ (video_id ++ ['\n']))

/-- `" ".join(...)` over the transcript snippet texts. -/
def joinSpace (parts : List Str) : Str :=
  (List.intersperse [' '] parts).flatten

/-- `get_transcript` (src/main.py:46-54): call the transcript API (modelled as
`api`, returning `none` on the exception branch); on success join the snippet
texts with spaces, on failure log and return `None`. -/
def get_transcript (api : Str → Option (List Str)) (video_id : Str) :
    Option Str :=
  match api video_id with
  | some transcript_list => some (joinSpace transcript_list)
  | none => none

/-- Fixed prompt text before the title (src/main.py:61-68). -/
def promptPart1 : Str :=
  ("\n    Aşağıdaki metin, \"").toList

/-- Fixed prompt text between title and transcript (src/main.py:61-68). -/
def promptPart2 : Str :=
  ("\" başlıklı bir YouTube videosunun transkriptidir.\n    Bu metni, ana fikirleri ve önemli noktaları içerecek şekilde, profesyonel bir dille ve madde madde olacak şekilde Türkçe olarak özetle.\n    Özetin başına videonun ana temasını anlatan kısa bir paragraf ekle.\n\n    METİN:\n    ").toList

/-- Fixed prompt text after the transcript (src/main.py:61-68). -/
def promptPart3 : Str := ("\n    ").toList

/-- `prompt_template.format(title=title, transcript=transcript)`
(src/main.py:72). -/
def final_prompt (title transcript : Str) : Str :=
  promptPart1 ++ title ++ promptPart2 ++ transcript ++ promptPart3

/-- `summarize_text` (src/main.py:56-79): format the prompt, call the
generative model (modelled as `gen`, `none` on the exception branch); on
failure log and return `None`. -/
def summarize_text (gen : Str → Option Str) (transcript title : Str) :
    Option Str :=
  match gen (final_prompt title transcript) with
  | some response_text => some response_text
  | none => none

/-- The character class of `re.sub(r'[\\/*?:"<>|]', "", name)`
(src/main.py:83). -/
def isForbiddenChar (c : Char) : Bool :=
  c = '\\' || c = '/' || c = '*' || c = '?' || c = ':' || c = '"' ||
    c = '<' || c = '>' || c = '|'

/-- `sanitize_filename` (src/main.py:81-83): delete every occurrence of a
forbidden character. -/
def sanitize_filename (name : Str) : Str :=
  name.filter (fun c => !isForbiddenChar c)

/-- The `ValueError` message raised for a missing API key (src/main.py:27). -/
def apiKeyError : Str :=
  ("GEMINI_API_KEY not found. Please add it to your repository's GitHub Secrets.").toList

/-- The module-level credential check (src/main.py:25-27):
`API_KEY = os.getenv('GEMINI_API_KEY'); if not API_KEY: raise ValueError(...)`.
Python truthiness: `not API_KEY` holds when the variable is unset (`None`)
or set to the empty string. -/
def apiKeyCheck (env : Option Str) : Except Str Str :=
  match env with
  | none => Except.error apiKeyError
  | some k => if k = [] then Except.error apiKeyError else Except.ok k

/-- A well-formed state file: absent, empty, or newline-terminated (every file
ever produced by `save_processed_video` is). -/
def wfFile (fs : Option Str) : Prop :=
  fs.getD [] = [] ∨ (fs.getD []).getLast? = some '\n'

instance (fs : Option Str) : Decidable (wfFile fs) := by
  unfold wfFile; infer_instance

/-- A line-safe video identifier: no embedded newline, and invariant under
`str.strip()`. Actual platform video identifiers are alphanumeric. -/
def cleanId (id : Str) : Prop := '\n' ∉ id ∧ pyStrip id = id

instance (id : Str) : Decidable (cleanId id) := by
  unfold cleanId; infer_instance

/- ## The pipeline orchestrator -/

/-- A feed entry as consumed by the orchestrator: the platform video
identifier and the video title. -/
structure Entry where
  videoId : Str
  title : Str
deriving DecidableEq

/-- Observable side effects of one run, in the order they are performed:
attempting a transcript fetch, writing a summary artifact, and recording an
identifier in the State Store. -/
inductive Event where
  | fetchTranscript (videoId : Str)
  | writeArtifact (videoId : Str) (filename : Str) (content : Str)
  | record (videoId : Str)
deriving DecidableEq

/-- The orchestrator's state: the durable state file, the in-memory
processed-identifier set, the summary artifacts written this run
(filename, content), and the trace of observable events. -/
structure RunState where
  fs : Option Str
  mem : Finset Str
  artifacts : List (Str × Str)
  trace : List Event
deriving DecidableEq

/-- Modelled from the spec: the body of `main`'s per-entry loop is not
present under src/ (src/main.py ends at line 95, inside `main`).  Per spec
§4.2: skip an entry whose identifier is already in the in-memory set;
otherwise fetch the transcript (on failure log and skip), summarize (on
failure log and skip), persist the summary under the sanitized title, and
only after successful persistence record the identifier in the State Store
and add it to the in-memory set. -/
def processEntry (api : Str → Option (List Str)) (gen : Str → Option Str)
    (s : RunState) (e : Entry) : RunState :=
  if e.videoId ∈ s.mem then s
  else
    let s1 : RunState := { s with trace := s.trace ++ [Event.fetchTranscript e.videoId] }
    match get_transcript api e.videoId with
    | none => s1
    | some transcript =>
      match summarize_text gen transcript e.title with
      | none => s1
      | some summary =>
        let fname := sanitize_filename e.title
        { fs := save_processed_video s1.fs e.videoId
          mem := insert e.videoId s1.mem
          artifacts := s1.artifacts ++ [(fname, summary)]
          trace := s1.trace ++ [Event.writeArtifact e.videoId fname summary,
                                Event.record e.videoId] }

/-- Modelled from the spec: one full run of `main` over the flattened list
of feed entries (src/main.py:87-95 plus the loop body missing from src/).
The processed set is loaded once at run start; entries are processed
strictly sequentially. -/
def runPipeline (api : Str → Option (List Str)) (gen : Str → Option Str)
    (fs : Option Str) (entries : List Entry) : RunState :=
  entries.foldl (processEntry api gen)
    { fs := fs
      mem := get_processed_videos fs
      artifacts := []
      trace := [] }

/-- The whole program: the module-level credential check (src/main.py:25-27)
runs before `main`; on failure the process aborts before any channel is
processed. -/
def program (env : Option Str) (api : Str → Option (List Str))
    (gen : Str → Option Str) (fs : Option Str) (entries : List Entry) :
    Except Str RunState :=
  match apiKeyCheck env with
  | Except.error m => Except.error m
  | Except.ok _ => Except.ok (runPipeline api gen fs entries)

/-- An entry for which both external calls succeed (so the per-entry
pipeline would reach persistence if the entry is not skipped). -/
def canSucceed (api : Str → Option (List Str)) (gen : Str → Option Str)
    (e : Entry) : Bool :=
  match get_transcript api e.videoId with
  | none => false
  | some t => (summarize_text gen t e.title).isSome

/-- Every `record` event is preceded by a `writeArtifact` event for the same
identifier. -/
def recordsCovered (t : List Event) : Prop :=
  ∀ (i : Nat) (id : Str), t[i]? = some (Event.record id) →
    ∃ j : Nat, j < i ∧ ∃ fn c, t[j]? = some (Event.writeArtifact id fn c)

/-- Invariant tying the in-memory set to the durable store. -/
def stateWF (s : RunState) : Prop :=
  wfFile s.fs ∧ s.mem = get_processed_videos s.fs

/-- A transcript API stub that always succeeds (for concrete instantiations). -/
def okApi : Str → Option (List Str) := fun _ => some [("hello world").toList]

/-- A transcript API stub that always fails. -/
def failApi : Str → Option (List Str) := fun _ => none

/-- A generative-model stub that always succeeds. -/
def okGen : Str → Option Str := fun _ => some (("a summary").toList)

/-- A generative-model stub that always fails. -/
def noGen : Str → Option Str := fun _ => none

/-- A sample feed entry. -/
def entryV1 : Entry := ⟨("v1").toList, ("Intro").toList⟩

/- ## Basic lemmas about the line/strip model -/

theorem pyLines_nil : pyLines [] = [] := rfl

theorem pyLines_ne_nil {l : Str} (h : l ≠ []) : pyLines l ≠ [] := by
  match l with
  | [] => exact absurd rfl h
  | c :: rest =>
    by_cases hc : c = '\n'
    · simp [pyLines, hc]
    · simp only [pyLines, if_neg hc]
      cases pyLines rest <;> simp

theorem pyLines_append (a b : Str)
    (ha : a = [] ∨ a.getLast? = some '\n') :
    pyLines (a ++ b) = pyLines a ++ pyLines b := by
  induction a with
  | nil => simp [pyLines]
  | cons c a' ih =>
    rcases ha with ha | ha
    · exact absurd ha (by simp)
    · rcases eq_or_ne a' [] with rfl | ha'
      · have hc : c = '\n' := by simpa using ha
        subst hc
        simp [pyLines]
      · have hlast : a'.getLast? = some '\n' := by
          cases a' with
          | nil => exact absurd rfl ha'
          | cons x xs => rwa [List.getLast?_cons_cons] at ha
        have ih' := ih (Or.inr hlast)
        by_cases hc : c = '\n'
        · subst hc
          simp [pyLines, ih']
        · obtain ⟨l, ls, hpl⟩ : ∃ l ls, pyLines a' = l :: ls := by
            cases h : pyLines a' with
            | nil => exact absurd h (pyLines_ne_nil ha')
            | cons l ls => exact ⟨l, ls, rfl⟩
          have hab : pyLines (a' ++ b) = l :: (ls ++ pyLines b) := by
            rw [ih', hpl]; rfl
          show pyLines (c :: (a' ++ b)) = pyLines (c :: a') ++ pyLines b
          simp only [pyLines, if_neg hc, hab, hpl]
          simp

theorem pyLines_single (id : Str) (hid : '\n' ∉ id) :
    pyLines (id ++ ['\n']) = [id ++ ['\n']] := by
  induction id with
  | nil => simp [pyLines]
  | cons c id' ih =>
    have hc : c ≠ '\n' := by
      intro h; exact hid (by simp [h])
    have hid' : '\n' ∉ id' := by
      intro h; exact hid (List.mem_cons_of_mem _ h)
    simp only [List.cons_append, List.append_eq, pyLines, if_neg hc, ih hid']

theorem trimRight_append_newline (l : Str) :
    trimRight (l ++ ['\n']) = trimRight l := by
  simp [trimRight, List.dropWhile, isPySpace]

theorem pyStrip_append_newline (l : Str) :
    pyStrip (l ++ ['\n']) = pyStrip l := by
  simp [pyStrip, trimRight_append_newline]

/- ## Idempotence of `str.strip()` -/

theorem trimRight_eq_rdropWhile (l : Str) :
    trimRight l = List.rdropWhile isPySpace l := rfl

theorem pyStrip_eq_dropWhile (l : Str) :
    pyStrip l = (trimRight l).dropWhile isPySpace := rfl

theorem trimLeft_pyStrip (l : Str) : trimLeft (pyStrip l) = pyStrip l := by
  rw [pyStrip_eq_dropWhile]
  exact List.dropWhile_idempotent _ _

theorem trimRight_pyStrip (l : Str) : trimRight (pyStrip l) = pyStrip l := by
  rcases eq_or_ne (pyStrip l) [] with h | h
  · rw [h]; rfl
  · have hr : trimRight l ≠ [] := by
      intro h0
      exact h (by rw [pyStrip_eq_dropWhile, h0]; rfl)
    rw [trimRight_eq_rdropWhile, List.rdropWhile_eq_self_iff]
    intro hl
    obtain ⟨t, ht⟩ := (List.dropWhile_suffix isPySpace :
      (trimRight l).dropWhile isPySpace <:+ trimRight l)
    have h1 : (trimRight l).getLast? = (pyStrip l).getLast? := by
      conv_lhs => rw [← ht]
      rw [pyStrip_eq_dropWhile] at h ⊢
      exact List.getLast?_append_of_ne_nil t h
    have h2 : (pyStrip l).getLast? = some ((pyStrip l).getLast hl) :=
      List.getLast?_eq_getLast_of_ne_nil hl
    have h3 : (trimRight l).getLast? = some ((trimRight l).getLast hr) :=
      List.getLast?_eq_getLast_of_ne_nil hr
    have h4 : (pyStrip l).getLast hl = (trimRight l).getLast hr := by
      rw [h1, h2] at h3
      exact (Option.some.injEq _ _ ▸ h3)
    rw [h4]
    exact List.rdropWhile_last_not isPySpace l hr

theorem pyStrip_idem (l : Str) : pyStrip (pyStrip l) = pyStrip l := by
  show trimLeft (trimRight (pyStrip l)) = pyStrip l
  rw [trimRight_pyStrip, trimLeft_pyStrip]

/- ## Store lemmas: the effect of `save_processed_video` on
`get_processed_videos` -/

theorem gpv_some (c : Str) :
    get_processed_videos (some c) = ((pyLines c).map pyStrip).toFinset := rfl

theorem gpv_contents (fs : Option Str) :
    get_processed_videos fs = ((pyLines (fs.getD [])).map pyStrip).toFinset := by
  cases fs <;> simp [get_processed_videos, pyLines]

theorem wfFile_save (fs : Option Str) (id : Str) :
    wfFile (save_processed_video fs id) := by
  right
  show (fs.getD [] ++ (id ++ ['\n'])).getLast? = some '\n'
  rw [← List.append_assoc]
  exact List.getLast?_concat _

theorem gpv_save (fs : Option Str) (id : Str) (hwf : wfFile fs)
    (hid : '\n' ∉ id) :
    get_processed_videos (save_processed_video fs id)
      = insert (pyStrip id) (get_processed_videos fs) := by
  have hlines : pyLines (fs.getD [] ++ (id ++ ['\n']))
      = pyLines (fs.getD []) ++ [id ++ ['\n']] := by
    rw [pyLines_append _ _ hwf, pyLines_single id hid]
  rw [gpv_contents fs]
  show ((pyLines (fs.getD [] ++ (id ++ ['\n']))).map pyStrip).toFinset = _
  rw [hlines]
  simp only [List.map_append, List.toFinset_append, List.map_cons,
    List.map_nil, pyStrip_append_newline, List.toFinset_cons,
    List.toFinset_nil, insert_emptyc_eq]
  rw [Finset.union_comm]
  rfl

theorem gpv_save_mono (fs : Option Str) (j : Str) (hwf : wfFile fs) :
    get_processed_videos fs ⊆ get_processed_videos (save_processed_video fs j) := by
  have hlines : pyLines (fs.getD [] ++ (j ++ ['\n']))
      = pyLines (fs.getD []) ++ pyLines (j ++ ['\n']) :=
    pyLines_append _ _ hwf
  rw [gpv_contents fs]
  intro x hx
  show x ∈ ((pyLines (fs.getD [] ++ (j ++ ['\n']))).map pyStrip).toFinset
  rw [hlines]
  simp only [List.map_append, List.toFinset_append, Finset.mem_union]
  exact Or.inl hx

/- ## Trace-ordering lemmas -/

theorem recordsCovered_nil : recordsCovered [] := by
  intro i id h
  simp at h

theorem recordsCovered_append {t d : List Event}
    (ht : recordsCovered t) (hd : recordsCovered d) :
    recordsCovered (t ++ d) := by
  intro i id h
  by_cases hi : i < t.length
  · rw [List.getElem?_append_left hi] at h
    obtain ⟨j, hj, fn, c, hw⟩ := ht i id h
    exact ⟨j, hj, fn, c, by rw [List.getElem?_append_left (hj.trans hi)]; exact hw⟩
  · push_neg at hi
    rw [List.getElem?_append_right hi] at h
    obtain ⟨j, hj, fn, c, hw⟩ := hd (i - t.length) id h
    refine ⟨t.length + j, by omega, fn, c, ?_⟩
    rw [List.getElem?_append_right (by omega)]
    simpa using hw

theorem recordsCovered_fetch (id : Str) :
    recordsCovered [Event.fetchTranscript id] := by
  intro i id' h
  match i with
  | 0 => simp at h
  | n + 1 => simp at h

theorem recordsCovered_block (id fn c : Str) :
    recordsCovered [Event.fetchTranscript id, Event.writeArtifact id fn c,
      Event.record id] := by
  intro i id' h
  match i with
  | 0 => simp at h
  | 1 => simp at h
  | 2 =>
    simp only [List.getElem?_cons_succ, List.getElem?_cons_zero,
      Option.some.injEq, Event.record.injEq] at h
    subst h
    exact ⟨1, by omega, fn, c, by simp⟩
  | n + 3 => simp at h

/-- Case analysis of one `processEntry` step. -/
theorem processEntry_cases (api : Str → Option (List Str))
    (gen : Str → Option Str) (s : RunState) (e : Entry) :
    (e.videoId ∈ s.mem ∧ processEntry api gen s e = s) ∨
    (e.videoId ∉ s.mem ∧ canSucceed api gen e = false ∧
      processEntry api gen s e
        = { s with trace := s.trace ++ [Event.fetchTranscript e.videoId] }) ∨
    (e.videoId ∉ s.mem ∧ canSucceed api gen e = true ∧
      ∃ t summary, get_transcript api e.videoId = some t ∧
        summarize_text gen t e.title = some summary ∧
        processEntry api gen s e =
          { fs := save_processed_video s.fs e.videoId
            mem := insert e.videoId s.mem
            artifacts := s.artifacts ++ [(sanitize_filename e.title, summary)]
            trace := s.trace ++ [Event.fetchTranscript e.videoId,
              Event.writeArtifact e.videoId (sanitize_filename e.title) summary,
              Event.record e.videoId] }) := by
  by_cases hmem : e.videoId ∈ s.mem
  · exact Or.inl ⟨hmem, by simp [processEntry, hmem]⟩
  · cases ht : get_transcript api e.videoId with
    | none =>
      refine Or.inr (Or.inl ⟨hmem, ?_, ?_⟩)
      · simp [canSucceed, ht]
      · simp [processEntry, hmem, ht]
    | some t =>
      cases hs : summarize_text gen t e.title with
      | none =>
        refine Or.inr (Or.inl ⟨hmem, ?_, ?_⟩)
        · simp [canSucceed, ht, hs]
        · simp [processEntry, hmem, ht, hs]
      | some summary =>
        refine Or.inr (Or.inr ⟨hmem, ?_, t, summary, rfl, hs, ?_⟩)
        · simp [canSucceed, ht, hs]
        · simp [processEntry, hmem, ht, hs]

theorem processEntry_trace (api : Str → Option (List Str))
    (gen : Str → Option Str) (s : RunState) (e : Entry) :
    ∃ d, (processEntry api gen s e).trace = s.trace ++ d ∧ recordsCovered d := by
  rcases processEntry_cases api gen s e with ⟨_, heq⟩ | ⟨_, _, heq⟩ |
    ⟨_, _, t, summary, _, _, heq⟩
  · exact ⟨[], by simp [heq], recordsCovered_nil⟩
  · exact ⟨[Event.fetchTranscript e.videoId], by simp [heq],
      recordsCovered_fetch _⟩
  · exact ⟨[Event.fetchTranscript e.videoId,
      Event.writeArtifact e.videoId (sanitize_filename e.title) summary,
      Event.record e.videoId], by simp [heq], recordsCovered_block _ _ _⟩

theorem foldl_recordsCovered (api : Str → Option (List Str))
    (gen : Str → Option Str) (entries : List Entry) (s : RunState)
    (h : recordsCovered s.trace) :
    recordsCovered ((entries.foldl (processEntry api gen) s).trace) := by
  induction entries generalizing s with
  | nil => exact h
  | cons e rest ih =>
    rw [List.foldl_cons]
    apply ih
    obtain ⟨d, hd, hcov⟩ := processEntry_trace api gen s e
    rw [hd]
    exact recordsCovered_append h hcov

/- ## State invariants of a run -/

theorem stateWF_processEntry {api : Str → Option (List Str)}
    {gen : Str → Option Str} {s : RunState} {e : Entry}
    (h : stateWF s) (hc : cleanId e.videoId) :
    stateWF (processEntry api gen s e) := by
  rcases processEntry_cases api gen s e with ⟨_, heq⟩ | ⟨_, _, heq⟩ |
    ⟨_, _, t, summary, _, _, heq⟩
  · rwa [heq]
  · rw [heq]
    exact ⟨h.1, h.2⟩
  · rw [heq]
    refine ⟨wfFile_save _ _, ?_⟩
    show insert e.videoId s.mem = get_processed_videos (save_processed_video s.fs e.videoId)
    rw [gpv_save s.fs e.videoId h.1 hc.1, hc.2, h.2]

theorem foldl_stateWF {api : Str → Option (List Str)}
    {gen : Str → Option Str} {entries : List Entry} {s : RunState}
    (h : stateWF s) (hent : ∀ e ∈ entries, cleanId e.videoId) :
    stateWF (entries.foldl (processEntry api gen) s) := by
  induction entries generalizing s with
  | nil => exact h
  | cons e rest ih =>
    rw [List.foldl_cons]
    exact ih (stateWF_processEntry h (hent e (by simp)))
      (fun e' he' => hent e' (List.mem_cons_of_mem _ he'))

/-- The in-memory set after a run: the initial set plus the identifiers of
exactly those entries for which both external calls succeed. -/
theorem foldl_mem_char {api : Str → Option (List Str)}
    {gen : Str → Option Str} (entries : List Entry) (s : RunState)
    (h : stateWF s) (hent : ∀ e ∈ entries, cleanId e.videoId) :
    (entries.foldl (processEntry api gen) s).mem
      = s.mem ∪ ((entries.filter (canSucceed api gen)).map Entry.videoId).toFinset := by
  induction entries generalizing s with
  | nil => simp
  | cons e rest ih =>
    have hrest : ∀ e' ∈ rest, cleanId e'.videoId :=
      fun e' he' => hent e' (List.mem_cons_of_mem _ he')
    rw [List.foldl_cons]
    rcases processEntry_cases api gen s e with ⟨hmem, heq⟩ | ⟨hmem, hcs, heq⟩ |
      ⟨hmem, hcs, t, summary, ht, hs, heq⟩
    · rw [heq, ih s h hrest]
      cases hcs : canSucceed api gen e with
      | false => simp [List.filter_cons, hcs]
      | true =>
        simp only [List.filter_cons, hcs, if_pos, List.map_cons,
          List.toFinset_cons]
        ext x
        simp only [Finset.mem_union, Finset.mem_insert, List.mem_toFinset]
        constructor
        · rintro (hx | hx)
          · exact Or.inl hx
          · exact Or.inr (Or.inr hx)
        · rintro (hx | rfl | hx)
          · exact Or.inl hx
          · exact Or.inl hmem
          · exact Or.inr hx
    · have h' : stateWF ({ s with trace := s.trace ++ [Event.fetchTranscript e.videoId] }) :=
        ⟨h.1, h.2⟩
      rw [heq, ih _ h' hrest]
      simp [List.filter_cons, hcs]
    · have h' : stateWF (processEntry api gen s e) :=
        stateWF_processEntry h (hent e (by simp))
      rw [heq] at h'
      rw [heq, ih _ h' hrest]
      simp only [List.filter_cons, hcs, if_pos, List.map_cons,
        List.toFinset_cons]
      show insert e.videoId s.mem ∪ _ = _
      rw [Finset.insert_union, ← Finset.union_insert]

/-- If every entry is either already processed or bound to fail, a run
changes neither the store, nor the in-memory set, nor the artifacts. -/
theorem foldl_noop {api : Str → Option (List Str)} {gen : Str → Option Str}
    (entries : List Entry) (s : RunState)
    (h : ∀ e ∈ entries, e.videoId ∈ s.mem ∨ canSucceed api gen e = false) :
    (entries.foldl (processEntry api gen) s).fs = s.fs ∧
      (entries.foldl (processEntry api gen) s).mem = s.mem ∧
      (entries.foldl (processEntry api gen) s).artifacts = s.artifacts := by
  induction entries generalizing s with
  | nil => exact ⟨rfl, rfl, rfl⟩
  | cons e rest ih =>
    have hrest : ∀ e' ∈ rest, e'.videoId ∈ s.mem ∨ canSucceed api gen e' = false :=
      fun e' he' => h e' (List.mem_cons_of_mem _ he')
    rw [List.foldl_cons]
    rcases processEntry_cases api gen s e with ⟨hmem, heq⟩ | ⟨hmem, hcs, heq⟩ |
      ⟨hmem, hcs, t, summary, ht, hs, heq⟩
    · rw [heq]
      exact ih s hrest
    · rw [heq]
      exact ih _ hrest
    · rcases h e (by simp) with hmem' | hcs'
      · exact absurd hmem' hmem
      · rw [hcs] at hcs'
        exact absurd hcs' (by simp)

/- ## Claim theorems -/

/-- C1: For every video entry processed in a run, `save_processed_video` is
invoked for that video's identifier only after the summary artifact for that
video has been written: in the run's event trace, every `record` event is
strictly preceded by a `writeArtifact` event for the same identifier. -/
theorem C1_record_only_after_write (api : Str → Option (List Str))
    (gen : Str → Option Str) (fs : Option Str) (entries : List Entry) :
    recordsCovered (runPipeline api gen fs entries).trace :=
  foldl_recordsCovered api gen entries _ recordsCovered_nil

theorem C1_record_only_after_write_witness :
    recordsCovered (runPipeline okApi okGen none [entryV1]).trace :=
  C1_record_only_after_write okApi okGen none [entryV1]

/-- C2: Running the pipeline twice in succession with an unchanged feed is
idempotent: the second run produces no summary artifacts and leaves the
State Store file unchanged (for a well-formed store and line-safe
identifiers). -/
theorem C2_second_run_idempotent (api : Str → Option (List Str))
    (gen : Str → Option Str) (fs : Option Str) (entries : List Entry)
    (hwf : wfFile fs) (hent : ∀ e ∈ entries, cleanId e.videoId) :
    (runPipeline api gen (runPipeline api gen fs entries).fs entries).artifacts
        = [] ∧
      (runPipeline api gen (runPipeline api gen fs entries).fs entries).fs
        = (runPipeline api gen fs entries).fs := by
  have hwf0 : stateWF
      { fs := fs, mem := get_processed_videos fs, artifacts := [], trace := [] } :=
    ⟨hwf, rfl⟩
  have hWF1 : stateWF (runPipeline api gen fs entries) :=
    foldl_stateWF hwf0 hent
  have hchar : (runPipeline api gen fs entries).mem
      = get_processed_videos fs
        ∪ ((entries.filter (canSucceed api gen)).map Entry.videoId).toFinset :=
    foldl_mem_char entries _ hwf0 hent
  have hcond : ∀ e ∈ entries,
      e.videoId ∈ get_processed_videos (runPipeline api gen fs entries).fs
        ∨ canSucceed api gen e = false := by
    intro e he
    cases hcs : canSucceed api gen e with
    | false => exact Or.inr rfl
    | true =>
      left
      rw [← hWF1.2, hchar]
      apply Finset.mem_union_right
      simp only [List.mem_toFinset, List.mem_map]
      exact ⟨e, List.mem_filter.mpr ⟨he, hcs⟩, rfl⟩
  have hnoop := foldl_noop entries
    { fs := (runPipeline api gen fs entries).fs
      mem := get_processed_videos (runPipeline api gen fs entries).fs
      artifacts := []
      trace := [] } (fun e he => hcond e he)
  exact ⟨hnoop.2.2, hnoop.1⟩

theorem C2_second_run_idempotent_witness :
    (wfFile (none : Option Str) ∧ ∀ e ∈ [entryV1], cleanId e.videoId) ∧
      ((runPipeline okApi okGen (runPipeline okApi okGen none [entryV1]).fs
          [entryV1]).artifacts = [] ∧
        (runPipeline okApi okGen (runPipeline okApi okGen none [entryV1]).fs
          [entryV1]).fs = (runPipeline okApi okGen none [entryV1]).fs) :=
  ⟨⟨by decide, by decide⟩,
    C2_second_run_idempotent okApi okGen none [entryV1] (by decide) (by decide)⟩

/-- C3: `get_processed_videos` returns the empty set, without raising, when
the durable record file does not exist. -/
theorem C3_missing_store_loads_empty :
    get_processed_videos none = (∅ : Finset Str) := rfl

/-- C4: `save_processed_video` appends exactly one line consisting of the
identifier, with no deduplication: calling it twice with the same identifier
leaves the durable record containing that line twice more than before. -/
theorem C4_save_appends_no_dedup (fs : Option Str) (id : Str)
    (hid : '\n' ∉ id) (hwf : wfFile fs) :
    pyLines ((save_processed_video fs id).getD [])
        = pyLines (fs.getD []) ++ [id ++ ['\n']] ∧
      (pyLines ((save_processed_video (save_processed_video fs id) id).getD [])).count
          (id ++ ['\n'])
        = (pyLines (fs.getD [])).count (id ++ ['\n']) + 2 := by
  have hone : ∀ g : Option Str, wfFile g →
      pyLines ((save_processed_video g id).getD [])
        = pyLines (g.getD []) ++ [id ++ ['\n']] := by
    intro g hg
    show pyLines (g.getD [] ++ (id ++ ['\n'])) = _
    rw [pyLines_append _ _ hg, pyLines_single id hid]
  refine ⟨hone fs hwf, ?_⟩
  rw [hone _ (wfFile_save fs id), hone fs hwf]
  simp [List.count_append]

theorem C4_save_appends_no_dedup_witness :
    ('\n' ∉ ("v1").toList ∧ wfFile (none : Option Str)) ∧
      (pyLines ((save_processed_video none (("v1").toList)).getD [])
          = pyLines ((none : Option Str).getD [])
            ++ [("v1").toList ++ ['\n']] ∧
        (pyLines ((save_processed_video
            (save_processed_video none (("v1").toList)) (("v1").toList)).getD [])).count
            (("v1").toList ++ ['\n'])
          = (pyLines ((none : Option Str).getD [])).count
              (("v1").toList ++ ['\n']) + 2) :=
  ⟨⟨by decide, by decide⟩,
    C4_save_appends_no_dedup none (("v1").toList) (by decide) (by decide)⟩

/-- C5 (counterexample): the round trip fails for an arbitrary store state
or an arbitrary identifier.  With a store whose contents are `"x"` (not
newline-terminated), recording `"y"` merges with the last line, and `"y"` is
not in the loaded set; with an identifier carrying surrounding whitespace,
the loaded set contains only its stripped form. -/
theorem C5_roundtrip_counterexample :
    ("y").toList ∉ get_processed_videos
        (save_processed_video (some (("x").toList)) (("y").toList)) ∧
      (" y").toList ∉ get_processed_videos
        (save_processed_video (some []) ((" y").toList)) := by
  decide

/-- C5 (amended): for every identifier with no embedded newline that is
invariant under stripping, and every well-formed store state, after
`save_processed_video` the identifier is a member of the set returned by
every subsequent `get_processed_videos` call, including after any further
appends. -/
theorem C5_roundtrip_amended (fs : Option Str) (id : Str)
    (hwf : wfFile fs) (hclean : cleanId id) :
    id ∈ get_processed_videos (save_processed_video fs id) ∧
      ∀ futureIds : List Str,
        id ∈ get_processed_videos
          (futureIds.foldl save_processed_video (save_processed_video fs id)) := by
  have h1 : id ∈ get_processed_videos (save_processed_video fs id) := by
    rw [gpv_save fs id hwf hclean.1, hclean.2]
    exact Finset.mem_insert_self _ _
  refine ⟨h1, ?_⟩
  have hkeep : ∀ (js : List Str) (g : Option Str), wfFile g →
      id ∈ get_processed_videos g →
      id ∈ get_processed_videos (js.foldl save_processed_video g) := by
    intro js
    induction js with
    | nil => exact fun g _ h => h
    | cons j js ih =>
      intro g hg h
      rw [List.foldl_cons]
      exact ih _ (wfFile_save g j) (gpv_save_mono g j hg h)
  exact fun futureIds => hkeep futureIds _ (wfFile_save fs id) h1

theorem C5_roundtrip_amended_witness :
    (wfFile (none : Option Str) ∧ cleanId (("v1").toList)) ∧
      (("v1").toList ∈ get_processed_videos
          (save_processed_video none (("v1").toList)) ∧
        ∀ futureIds : List Str,
          ("v1").toList ∈ get_processed_videos
            (futureIds.foldl save_processed_video
              (save_processed_video none (("v1").toList)))) :=
  ⟨⟨by decide, by decide⟩,
    C5_roundtrip_amended none (("v1").toList) (by decide) (by decide)⟩

/-- C6: when the transcript fetch fails for an identifier, `get_transcript`
returns `None`, and after a whole run that identifier (not previously in the
store) is still absent from the State Store. -/
theorem C6_transcript_failure_skipped (api : Str → Option (List Str))
    (gen : Str → Option Str) (fs : Option Str) (entries : List Entry)
    (id : Str) (hwf : wfFile fs) (hent : ∀ e ∈ entries, cleanId e.videoId)
    (hfail : api id = none) (hnew : id ∉ get_processed_videos fs) :
    get_transcript api id = none ∧
      id ∉ get_processed_videos (runPipeline api gen fs entries).fs := by
  have hgt : get_transcript api id = none := by
    simp [get_transcript, hfail]
  refine ⟨hgt, ?_⟩
  have hwf0 : stateWF
      { fs := fs, mem := get_processed_videos fs, artifacts := [], trace := [] } :=
    ⟨hwf, rfl⟩
  have hWF1 : stateWF (runPipeline api gen fs entries) :=
    foldl_stateWF hwf0 hent
  have hchar : (runPipeline api gen fs entries).mem
      = get_processed_videos fs
        ∪ ((entries.filter (canSucceed api gen)).map Entry.videoId).toFinset :=
    foldl_mem_char entries _ hwf0 hent
  rw [← hWF1.2, hchar]
  intro hmem
  rcases Finset.mem_union.mp hmem with h | h
  · exact hnew h
  · simp only [List.mem_toFinset, List.mem_map] at h
    obtain ⟨e, hef, heid⟩ := h
    have hcs := (List.mem_filter.mp hef).2
    rw [canSucceed, heid, hgt] at hcs
    exact absurd hcs (by simp)

theorem C6_transcript_failure_skipped_witness :
    (wfFile (none : Option Str) ∧ (∀ e ∈ [entryV1], cleanId e.videoId) ∧
        failApi (("v1").toList) = none ∧
        ("v1").toList ∉ get_processed_videos none) ∧
      (get_transcript failApi (("v1").toList) = none ∧
        ("v1").toList ∉ get_processed_videos
          (runPipeline failApi okGen none [entryV1]).fs) :=
  ⟨⟨by decide, by decide, by decide, by decide⟩,
    C6_transcript_failure_skipped failApi okGen none [entryV1] (("v1").toList)
      (by decide) (by decide) (by decide) (by decide)⟩

/-- C7: when the summarization call fails, `summarize_text` returns `None`,
and an identifier (not previously in the store) whose every entry fails at
the summarization step is still absent from the State Store after the run. -/
theorem C7_summarize_failure_skipped (api : Str → Option (List Str))
    (gen : Str → Option Str) (fs : Option Str) (entries : List Entry)
    (id : Str) (hwf : wfFile fs) (hent : ∀ e ∈ entries, cleanId e.videoId)
    (hnew : id ∉ get_processed_videos fs)
    (hfail : ∀ e ∈ entries, e.videoId = id → ∀ t,
      get_transcript api id = some t → summarize_text gen t e.title = none) :
    (∀ transcript title, gen (final_prompt title transcript) = none →
        summarize_text gen transcript title = none) ∧
      id ∉ get_processed_videos (runPipeline api gen fs entries).fs := by
  refine ⟨fun transcript title h => by simp [summarize_text, h], ?_⟩
  have hwf0 : stateWF
      { fs := fs, mem := get_processed_videos fs, artifacts := [], trace := [] } :=
    ⟨hwf, rfl⟩
  have hWF1 : stateWF (runPipeline api gen fs entries) :=
    foldl_stateWF hwf0 hent
  have hchar : (runPipeline api gen fs entries).mem
      = get_processed_videos fs
        ∪ ((entries.filter (canSucceed api gen)).map Entry.videoId).toFinset :=
    foldl_mem_char entries _ hwf0 hent
  rw [← hWF1.2, hchar]
  intro hmem
  rcases Finset.mem_union.mp hmem with h | h
  · exact hnew h
  · simp only [List.mem_toFinset, List.mem_map] at h
    obtain ⟨e, hef, heid⟩ := h
    obtain ⟨hein, hcs⟩ := List.mem_filter.mp hef
    rw [canSucceed, heid] at hcs
    cases ht : get_transcript api id with
    | none => rw [ht] at hcs; exact absurd hcs (by simp)
    | some t =>
      rw [ht] at hcs
      have hcs2 : (summarize_text gen t e.title).isSome = true := hcs
      rw [hfail e hein heid t ht] at hcs2
      exact absurd hcs2 (by simp)

theorem C7_summarize_failure_skipped_witness :
    (wfFile (none : Option Str) ∧ (∀ e ∈ [entryV1], cleanId e.videoId) ∧
        ("v1").toList ∉ get_processed_videos none) ∧
      ((∀ transcript title, noGen (final_prompt title transcript) = none →
          summarize_text noGen transcript title = none) ∧
        ("v1").toList ∉ get_processed_videos
          (runPipeline okApi noGen none [entryV1]).fs) :=
  ⟨⟨by decide, by decide, by decide⟩,
    C7_summarize_failure_skipped okApi noGen none [entryV1] (("v1").toList)
      (by decide) (by decide) (by decide)
      (fun e _ _ t _ => rfl)⟩

/-- C8 (counterexample): the claim "if the credential is present, this error
branch is never taken" fails when the environment variable is set to the
empty string: the credential is present (`some`), yet the program aborts
with the fatal error before any processing. -/
theorem C8_missing_key_counterexample :
    (some ([] : Str) ≠ (none : Option Str)) ∧
      program (some ([] : Str)) okApi okGen none [] = Except.error apiKeyError := by
  constructor
  · simp
  · rfl

/-- C8 (amended): if the API-key credential is absent from the environment
or present but empty, the program aborts with the fatal error before any
channel is processed (no run happens at all); if it is present and
non-empty, the error branch is never taken and the run proceeds. -/
theorem C8_fatal_iff_key_missing_or_empty (env : Option Str)
    (api : Str → Option (List Str)) (gen : Str → Option Str)
    (fs : Option Str) (entries : List Entry) :
    (env.getD [] = [] →
        program env api gen fs entries = Except.error apiKeyError) ∧
      (env.getD [] ≠ [] →
        program env api gen fs entries
          = Except.ok (runPipeline api gen fs entries)) := by
  cases env with
  | none => exact ⟨fun _ => rfl, fun h => absurd rfl h⟩
  | some k =>
    constructor
    · intro h
      simp only [Option.getD_some] at h
      simp [program, apiKeyCheck, h]
    · intro h
      simp only [Option.getD_some] at h
      simp [program, apiKeyCheck, h]

theorem C8_fatal_iff_key_missing_or_empty_witness :
    ((none : Option Str).getD [] = [] ∧
        program none okApi okGen none [] = Except.error apiKeyError) ∧
      ((some (("k").toList) : Option Str).getD [] ≠ [] ∧
        program (some (("k").toList)) okApi okGen none []
          = Except.ok (runPipeline okApi okGen none [])) :=
  ⟨⟨rfl, (C8_fatal_iff_key_missing_or_empty none okApi okGen none []).1 rfl⟩,
    ⟨by decide,
      (C8_fatal_iff_key_missing_or_empty (some (("k").toList)) okApi okGen
        none []).2 (by decide)⟩⟩

/-- C9: `sanitize_filename` removes every forbidden character and leaves all
other characters (spaces included) in place; on `Top 10: "Best" Tips?` it
returns exactly `Top 10 Best Tips`. -/
theorem C9_sanitize_filename :
    (∀ (name : Str) (c : Char),
        c ∈ sanitize_filename name → isForbiddenChar c = false) ∧
      (∀ (name : Str) (c : Char), isForbiddenChar c = false →
        (sanitize_filename name).count c = name.count c) ∧
      sanitize_filename (("Top 10: \"Best\" Tips?").toList)
        = ("Top 10 Best Tips").toList := by
  refine ⟨?_, ?_, by decide⟩
  · intro name c hc
    simpa using List.of_mem_filter hc
  · intro name c hc
    rw [sanitize_filename, List.count_filter (by simp [hc])]

theorem C9_sanitize_filename_witness :
    isForbiddenChar 'T' = false ∧
      (sanitize_filename (("ab").toList)).count 'a' = (("ab").toList).count 'a' :=
  ⟨C9_sanitize_filename.1 (("Top").toList) 'T' (by decide),
    C9_sanitize_filename.2.1 (("ab").toList) 'a' (by decide)⟩

/-- C10: `get_processed_videos` yields a mathematical set of stripped lines:
every member is invariant under stripping (no surrounding whitespace), a
string is a member exactly when some line of the file strips to it, and
duplicate appends of the same identifier do not change the loaded set. -/
theorem C10_load_strips_and_dedups :
    (∀ (c : Str) (id : Str),
        id ∈ get_processed_videos (some c) → pyStrip id = id) ∧
      (∀ (c : Str) (id : Str),
        id ∈ get_processed_videos (some c) ↔ ∃ l ∈ pyLines c, pyStrip l = id) ∧
      (∀ (fs : Option Str) (id : Str), wfFile fs → '\n' ∉ id →
        get_processed_videos
            (save_processed_video (save_processed_video fs id) id)
          = get_processed_videos (save_processed_video fs id)) := by
  have hmem : ∀ (c : Str) (id : Str),
      id ∈ get_processed_videos (some c) ↔ ∃ l ∈ pyLines c, pyStrip l = id := by
    intro c id
    rw [gpv_some]
    simp
  refine ⟨?_, hmem, ?_⟩
  · intro c id h
    obtain ⟨l, _, rfl⟩ := (hmem c id).1 h
    exact pyStrip_idem l
  · intro fs id hwf hid
    rw [gpv_save _ _ (wfFile_save fs id) hid, gpv_save _ _ hwf hid]
    exact Finset.insert_idem _ _

theorem C10_load_strips_and_dedups_witness :
    (wfFile (none : Option Str) ∧ '\n' ∉ ("v1").toList) ∧
      get_processed_videos
          (save_processed_video (save_processed_video none (("v1").toList))
            (("v1").toList))
        = get_processed_videos (save_processed_video none (("v1").toList)) :=
  ⟨⟨by decide, by decide⟩,
    C10_load_strips_and_dedups.2.2 none (("v1").toList) (by decide) (by decide)⟩
